import Mathlib

/-!
# Verification of the WGAN-GP training engine and the spectral transform library

A shallow embedding of `models/WGAN.py` (the adversarial training engine) and
`utils/spectral.py` (the waveform / time-frequency transform library) of the
`audio_synthesis` repository, together with theorems settling the specification
claims about them.

Conventions of the embedding:
* float tensors are modelled over `ℝ`; a rank-k tensor is a k-fold nested `List`;
* external numeric primitives (TensorFlow forward/inverse STFT kernels, the mel
  filterbank builder, the matrix pseudo-inverse) are carried as parameters in a
  `SpectralPrims` record: the claims under study do not depend on their internals;
* randomness that the Python process draws from an ambient (process-wide) RNG is
  modelled by threading an explicit draw counter `ℕ` together with a draw stream
  `ℕ → ℝ`.
-/

noncomputable section

namespace AudioSynthesis

/-! ## Embedding of `models/WGAN.py` -/

/-- Ceiling division `⌈a / b⌉` on naturals, used to state batch counts. -/
def ceilDiv (a b : ℕ) : ℕ := (a + b - 1) / b

/-- Embedding of `tf.data.Dataset.batch(batch_size)` with the default `drop_remainder=False`:
split the element stream into consecutive groups of `bs`, keeping a final
shorter group.  `bs = 0` is outside the source contract (TensorFlow rejects
it); the embedding returns `[]` there. -/
def batchData {α : Type} (bs : ℕ) (l : List α) : List (List α) :=
  if h : bs = 0 ∨ l.length = 0 then []
  else l.take bs :: batchData bs (l.drop bs)
termination_by l.length
decreasing_by
  push_neg at h
  simp only [List.length_drop]
  omega

theorem batchData_length {α : Type} (bs : ℕ) (hbs : 0 < bs) (l : List α) :
    (batchData bs l).length = ceilDiv l.length bs := by
  rw [batchData]
  split
  · rename_i h
    rcases h with h | h
    · omega
    · simp [h, ceilDiv, Nat.div_eq_of_lt (by omega : bs - 1 < bs)]
  · rename_i h
    push_neg at h
    have ih := batchData_length bs hbs (l.drop bs)
    rw [List.length_cons, ih, List.length_drop]
    unfold ceilDiv
    rcases le_or_lt l.length bs with hle | hlt
    · have h0 : l.length - bs = 0 := by omega
      rw [h0]
      have l1 : (0 + bs - 1) / bs = 0 := Nat.div_eq_of_lt (by omega)
      have l2 : (l.length + bs - 1) / bs = 1 := by
        apply Nat.div_eq_of_lt_le
        · omega
        · omega
      omega
    · have h1 : l.length - bs + bs - 1 = l.length - 1 := by omega
      rw [h1]
      have h2 : (l.length - 1) / bs + 1 = (l.length - 1 + bs) / bs :=
        (Nat.add_div_right _ hbs).symm
      have h3 : l.length - 1 + bs = l.length + bs - 1 := by omega
      rw [h3] at h2
      exact h2
termination_by l.length
decreasing_by
  simp only [List.length_drop]
  omega

/-- The inner step loop of one epoch of `WGAN.train` (WGAN.py lines 166-173):
`i` starts at `1`; every batch gets a discriminator-only update
(`train_generator=False`), and when `i % generator_training_ratio == 0` the
same batch additionally gets a generator-only update.  Returns
(discriminator updates, generator updates). -/
def epochSteps {α : Type} (ratio : ℕ) : List α → ℕ → ℕ × ℕ
  | [], _ => (0, 0)
  | _ :: rest, i =>
    let next := epochSteps ratio rest (i + 1)
    (next.1 + 1, next.2 + if i % ratio = 0 then 1 else 0)

theorem epochSteps_fst {α : Type} (ratio : ℕ) (l : List α) :
    ∀ i : ℕ, (epochSteps ratio l i).1 = l.length := by
  induction l with
  | nil => intro i; simp [epochSteps]
  | cons a rest ih => intro i; simp [epochSteps, ih]

theorem epochSteps_snd {α : Type} (ratio : ℕ) (l : List α) :
    ∀ j : ℕ, (epochSteps ratio l (j + 1)).2 + j / ratio = (j + l.length) / ratio := by
  induction l with
  | nil => intro j; simp [epochSteps]
  | cons a rest ih =>
    intro j
    have hsucc : (j + 1) / ratio = j / ratio + if ratio ∣ j + 1 then 1 else 0 :=
      Nat.succ_div j ratio
    have hiff : ((j + 1) % ratio = 0) ↔ ratio ∣ (j + 1) := by
      constructor
      · exact Nat.dvd_of_mod_eq_zero
      · rintro ⟨c, hc⟩
        rw [hc]
        exact Nat.mul_mod_right ratio c
    have h2 := ih (j + 1)
    have hidx : j + (rest.length + 1) = (j + 1) + rest.length := by omega
    simp only [epochSteps, List.length_cons, hidx]
    by_cases hd : ratio ∣ (j + 1)
    · rw [if_pos (hiff.mpr hd)]
      rw [hsucc, if_pos hd] at h2
      linarith
    · rw [if_neg (fun hm => hd (hiff.mp hm))]
      rw [hsucc, if_neg hd] at h2
      linarith

/-- The derived internal dataset view (WGAN.py lines 99-100):
`tf.data.Dataset.from_tensor_slices(raw).shuffle(1000).repeat(ratio).batch(bs)`.
The bounded-buffer shuffle is an externally-randomized permutation of the raw
array; with the default `reshuffle_each_iteration` the `k`-th repetition gets
its own permutation, so the shuffle is carried as a family `shuffles k` of
functions, constrained to be permutations in the theorems. -/
def derivedDataset {α : Type} (shuffles : ℕ → List α → List α) (raw : List α)
    (ratio bs : ℕ) : List (List α) :=
  batchData bs (((List.range ratio).map fun k => shuffles k raw).flatten)

theorem derivedDataset_length {α : Type} (shuffles : ℕ → List α → List α)
    (raw : List α) (ratio bs : ℕ) (hbs : 0 < bs)
    (hperm : ∀ k, (shuffles k raw).Perm raw) :
    (derivedDataset shuffles raw ratio bs).length = ceilDiv (ratio * raw.length) bs := by
  unfold derivedDataset
  rw [batchData_length bs hbs]
  congr 1
  rw [List.length_flatten, List.map_map]
  have hmap : (List.range ratio).map (List.length ∘ fun k => shuffles k raw)
      = (List.range ratio).map fun _ => raw.length := by
    apply List.map_congr_left
    intro k _
    exact (hperm k).length_eq
  rw [hmap, List.map_const', List.length_range, List.sum_replicate, smul_eq_mul]

/-- Observable side effects of `WGAN.train`: an invocation of the
example-export collaborator `_generate_and_save_examples` (which forwards to
`fn_save_examples` when one was configured) tagged with an epoch number, and a
persisted checkpoint.  A checkpoint bundles the generator parameters, the
discriminator parameters and both optimizer states (the `tf.train.Checkpoint`
built in `WGAN.__init__`, lines 105-108). -/
inductive TrainEvent where
  | exportExamples (epoch : ℕ)
  | saveCheckpoint (epoch : ℕ)
deriving DecidableEq

/-- The epoch loop of `WGAN.train` (lines 162-179), processing epochs
`0, …, k-1` (0-based, as in `for epoch in range(self.epochs)`), returning
(total discriminator updates, total generator updates, side-effect trace).
In every epoch: run the step loop over `dataset` with `i` starting at 1; then,
if a checkpoint destination is configured and `(epoch + 1) % epochs_per_save == 0`,
persist a checkpoint; then export examples tagged `epoch + 1`.
The attribute `self.checkpoint_dir` consulted on line 175 is stored outside
`WGAN.__init__` (in the `AbstractModel` base class, which is not part of the
sources under study); modelled from the spec as the flag "a checkpoint
destination is configured". -/
def trainEpochs {α : Type} (dataset : List (List α)) (ratio epochsPerSave : ℕ)
    (checkpointConfigured exportConfigured : Bool) : ℕ → ℕ × ℕ × List TrainEvent
  | 0 => (0, 0, [])
  | k + 1 =>
    let prev := trainEpochs dataset ratio epochsPerSave checkpointConfigured
      exportConfigured k
    let steps := epochSteps ratio dataset 1
    (prev.1 + steps.1, prev.2.1 + steps.2,
      prev.2.2
        ++ (if checkpointConfigured && ((k + 1) % epochsPerSave == 0)
              then [TrainEvent.saveCheckpoint (k + 1)] else [])
        ++ (if exportConfigured then [TrainEvent.exportExamples (k + 1)] else []))

/-- Embedding of `WGAN.train` (lines 158-179): export one batch of examples tagged epoch 0
before any update, then run the epoch loop.  Returns (discriminator updates,
generator updates, side-effect trace). -/
def trainModel {α : Type} (shuffles : ℕ → List α → List α) (raw : List α)
    (bs ratio epochs epochsPerSave : ℕ)
    (checkpointConfigured exportConfigured : Bool) : ℕ × ℕ × List TrainEvent :=
  let dataset := derivedDataset shuffles raw ratio bs
  let pre := if exportConfigured then [TrainEvent.exportExamples 0] else []
  let body := trainEpochs dataset ratio epochsPerSave checkpointConfigured
    exportConfigured epochs
  (body.1, body.2.1, pre ++ body.2.2)

theorem trainEpochs_checkpoint_mem {α : Type} (dataset : List (List α))
    (ratio epochsPerSave : ℕ) (ckpt exp : Bool) (k e : ℕ) :
    TrainEvent.saveCheckpoint e
        ∈ (trainEpochs dataset ratio epochsPerSave ckpt exp k).2.2
      ↔ (ckpt = true ∧ 1 ≤ e ∧ e ≤ k ∧ e % epochsPerSave = 0) := by
  induction k with
  | zero =>
    simp only [trainEpochs, List.not_mem_nil, false_iff]
    rintro ⟨-, h1, hk, -⟩
    omega
  | succ k ih =>
    simp only [trainEpochs, List.mem_append, ih]
    constructor
    · rintro ((h | h) | h)
      · exact ⟨h.1, h.2.1, by omega, h.2.2.2⟩
      · by_cases hcm : (ckpt && ((k + 1) % epochsPerSave == 0)) = true
        · rw [if_pos hcm] at h
          simp only [List.mem_singleton, TrainEvent.saveCheckpoint.injEq] at h
          subst h
          simp only [Bool.and_eq_true, beq_iff_eq] at hcm
          exact ⟨hcm.1, by omega, le_refl _, hcm.2⟩
        · rw [if_neg hcm] at h
          simp at h
      · split at h <;> simp at h
    · rintro ⟨hc, h1, hk, hm⟩
      by_cases hlast : e = k + 1
      · subst hlast
        refine Or.inl (Or.inr ?_)
        have hcm : (ckpt && ((k + 1) % epochsPerSave == 0)) = true := by
          simp [hc, hm]
        rw [if_pos hcm]
        simp
      · exact Or.inl (Or.inl ⟨hc, h1, by omega, hm⟩)

theorem epochCounts_fst {α : Type} (shuffles : ℕ → List α → List α) (raw : List α)
    (bs ratio : ℕ) (hbs : 0 < bs) (hperm : ∀ k, (shuffles k raw).Perm raw) :
    (epochSteps ratio (derivedDataset shuffles raw ratio bs) 1).1
      = ceilDiv (ratio * raw.length) bs := by
  rw [epochSteps_fst, derivedDataset_length shuffles raw ratio bs hbs hperm]

theorem epochCounts_snd {α : Type} (shuffles : ℕ → List α → List α) (raw : List α)
    (bs ratio : ℕ) (hbs : 0 < bs) (hperm : ∀ k, (shuffles k raw).Perm raw) :
    (epochSteps ratio (derivedDataset shuffles raw ratio bs) 1).2
      = ceilDiv (ratio * raw.length) bs / ratio := by
  have h := epochSteps_snd ratio (derivedDataset shuffles raw ratio bs) 0
  simp only [Nat.zero_div, Nat.add_eq, Nat.zero_add, zero_add, add_zero] at h
  rw [h, derivedDataset_length shuffles raw ratio bs hbs hperm]

/-- Evaluation of `train` on the end-to-end scenario: any 100-example dataset,
`batch_size=16`, `generator_training_ratio=5`, one epoch, no checkpoint
destination, an example-export callback configured. -/
theorem trainModel_scenario_eval {α : Type} (shuffles : ℕ → List α → List α)
    (raw : List α) (hlen : raw.length = 100)
    (hperm : ∀ k, (shuffles k raw).Perm raw) :
    trainModel shuffles raw 16 5 1 10 false true
      = (32, 6, [TrainEvent.exportExamples 0, TrainEvent.exportExamples 1]) := by
  have h1 := epochCounts_fst shuffles raw 16 5 (by norm_num) hperm
  have h2 := epochCounts_snd shuffles raw 16 5 (by norm_num) hperm
  rw [hlen] at h1 h2
  have e1 : ceilDiv (5 * 100) 16 = 32 := by decide
  have e2 : ceilDiv (5 * 100) 16 / 5 = 6 := by decide
  rw [e1] at h1
  rw [e2] at h2
  simp [trainModel, trainEpochs, h1, h2]

/-! ### Embedding of `_compute_losses` (WGAN.py lines 22-37)

`d_real` and `d_fake` are the batches of discriminator scores (one scalar per
example).  `grads` is the result of
`t.gradient(d_interpolated, [interpolated])[0]`: the gradient of the
discriminator's score at the interpolated batch with respect to that batch,
one row per example, flattened over the non-batch axes (the source sums
squares over `sum_axes = range(1, len(model.d_in_data_shape))`, i.e. over
every axis except the batch axis, which is the sum over the flattened row). -/

def mean (l : List ℝ) : ℝ := l.sum / l.length

/-- Embedding of `_compute_losses(model, d_real, d_fake, interpolated)`. -/
def compute_losses (d_real d_fake : List ℝ) (grads : List (List ℝ)) : ℝ × ℝ :=
  let wasserstein_distance := mean d_real - mean d_fake
  let slopes := grads.map fun g => Real.sqrt ((g.map (· ^ 2)).sum)
  let gp := mean (slopes.map fun s => (s - 1) ^ 2)
  let G_loss := mean d_fake
  let D_loss := wasserstein_distance + 10 * gp
  (G_loss, D_loss)

theorem sum_squares_fin (g : List ℝ) :
    (g.map (· ^ 2)).sum = ∑ i : Fin g.length, g.get i ^ 2 := by
  induction g with
  | nil => simp
  | cons a l ih =>
    simp only [List.map_cons, List.sum_cons, List.length_cons, Fin.sum_univ_succ,
      List.get_cons_zero, List.get_cons_succ']
    rw [ih]

/-! ### Embedding of the interpolation step (WGAN.py lines 134-138)

`alpha` has shape `(batch_size, 1, 1, …)`: one uniform coefficient per example,
broadcast across all non-batch axes; each example is its flattened row.
`diff = X_gen - X; interp = X + (alpha * diff)`. -/

def interpolate (alpha : List ℝ) (X X_gen : List (List ℝ)) : List (List ℝ) :=
  List.zipWith
    (fun a xp =>
      List.zipWith (· + ·) xp.1 ((List.zipWith (· - ·) xp.2 xp.1).map (a * ·)))
    alpha (X.zip X_gen)

theorem interpolate_row_zero (x g : List ℝ) (h : x.length = g.length) :
    List.zipWith (· + ·) x ((List.zipWith (· - ·) g x).map ((0 : ℝ) * ·)) = x := by
  induction x generalizing g with
  | nil => simp
  | cons a l ih =>
    cases g with
    | nil => simp at h
    | cons b m =>
      simp only [List.length_cons, Nat.add_right_cancel_iff] at h
      simp only [List.zipWith_cons_cons, List.map_cons]
      rw [ih m h]
      norm_num

theorem interpolate_row_one (x g : List ℝ) (h : x.length = g.length) :
    List.zipWith (· + ·) x ((List.zipWith (· - ·) g x).map ((1 : ℝ) * ·)) = g := by
  induction x generalizing g with
  | nil => cases g with | nil => simp | cons b m => simp at h
  | cons a l ih =>
    cases g with
    | nil => simp at h
    | cons b m =>
      simp only [List.length_cons, Nat.add_right_cancel_iff] at h
      simp only [List.zipWith_cons_cons, List.map_cons]
      rw [ih m h]
      norm_num

/-! ### Embedding of `_train_step` (WGAN.py lines 111-149)

What the claim under study depends on is the control flow around the two
assertions: `d_real` and `d_fake` are produced by the discriminator, then
`assert d_real.shape[-1] == 1` and `assert d_fake.shape[-1] == 1` run (lines
131-132) before the interpolation/loss computation (lines 134-140, pure) and
before any `apply_gradients` call (lines 145-148).  The embedding carries the
two output shapes, the two optimizer effects (`apply_gradients` as abstract
parameter-set transformers), and the two flags; it returns the parameter pair
after the step together with `true` iff the step aborted on an assertion.
An aborted step raises before reaching the optimizer calls, so it returns the
parameter sets unchanged. -/

def trainStepModel {GP DP : Type} (d_real_shape d_fake_shape : List ℕ)
    (train_generator train_discriminator : Bool)
    (apply_gen : GP → GP) (apply_disc : DP → DP)
    (g_params : GP) (d_params : DP) : (GP × DP) × Bool :=
  if d_real_shape.getLast? ≠ some 1 then ((g_params, d_params), true)
  else if d_fake_shape.getLast? ≠ some 1 then ((g_params, d_params), true)
  else
    ((if train_generator then apply_gen g_params else g_params,
      if train_discriminator then apply_disc d_params else d_params), false)

/-! ## Claim theorems for the training engine -/

/-- Claim C1: for every batch of discriminator scores `d_real`, `d_fake` and every
per-example gradient batch `grads` of the discriminator's score at the
interpolated sample, the default loss function `_compute_losses` returns
`generator_loss = mean(d_fake)` and
`discriminator_loss = (mean(d_real) − mean(d_fake)) + 10 · mean((‖g‖₂ − 1)²)`,
where `‖g‖₂` is the per-example Euclidean (L2) norm over every non-batch
coordinate; the coefficient `10.0` appears as a fixed literal, with no
parameter of the function through which it could be altered. -/
theorem compute_losses_formula (d_real d_fake : List ℝ) (grads : List (List ℝ)) :
    compute_losses d_real d_fake grads =
      (mean d_fake,
        (mean d_real - mean d_fake) +
          10 * mean (grads.map fun g =>
            (‖(WithLp.equiv 2 (Fin g.length → ℝ)).symm g.get‖ - 1) ^ 2)) := by
  have hg : ∀ g : List ℝ,
      ‖(WithLp.equiv 2 (Fin g.length → ℝ)).symm g.get‖
        = Real.sqrt ((g.map (· ^ 2)).sum) := by
    intro g
    rw [EuclideanSpace.norm_eq, sum_squares_fin]
    congr 1
    refine Finset.sum_congr rfl fun i _ => ?_
    rw [WithLp.equiv_symm_pi_apply, Real.norm_eq_abs, sq_abs]
  unfold compute_losses
  simp only [List.map_map]
  refine congrArg (Prod.mk _) ?_
  have hmap : grads.map ((fun s => (s - 1) ^ 2) ∘ fun g => Real.sqrt ((g.map (· ^ 2)).sum))
      = grads.map fun g =>
          (‖(WithLp.equiv 2 (Fin g.length → ℝ)).symm g.get‖ - 1) ^ 2 := by
    apply List.map_congr_left
    intro g _
    simp only [Function.comp_apply, hg g]
  rw [hmap]

/-- Claim C2, counterexample: in the end-to-end configuration (100 raw examples,
`batch_size = 16`, `generator_training_ratio = 5`), one epoch of `train`
performs 32 discriminator updates but only 6 generator updates, and
`32 ≠ 5 * 6`: the number of discriminator updates is NOT exactly
`generator_training_ratio` times the number of generator updates, because the
derived dataset repeats *before* batching, so the number of batches
`⌈(5·100)/16⌉ = 32` need not be divisible by the ratio. -/
theorem update_ratio_counterexample :
    (epochSteps 5 (derivedDataset (fun _ (l : List ℕ) => l) (List.range 100) 5 16) 1).1 = 32 ∧
    (epochSteps 5 (derivedDataset (fun _ (l : List ℕ) => l) (List.range 100) 5 16) 1).2 = 6 ∧
    ¬ (32 = 5 * 6) := by
  have h1 := epochCounts_fst (fun _ (l : List ℕ) => l) (List.range 100) 16 5
    (by norm_num) (fun _ => List.Perm.refl _)
  have h2 := epochCounts_snd (fun _ (l : List ℕ) => l) (List.range 100) 16 5
    (by norm_num) (fun _ => List.Perm.refl _)
  simp only [List.length_range] at h1 h2
  refine ⟨?_, ?_, by decide⟩
  · rw [h1]; decide
  · rw [h2]; decide

/-- Claim C2, amended: over one full epoch of `train`, the number of
discriminator updates is `N = ⌈(ratio · |raw|)/batch_size⌉` (one per batch of
the shuffle-repeat-batch dataset view) and the number of generator updates is
`⌊N / ratio⌋`, so discriminator updates = `ratio` × generator updates
`+ N mod ratio`; the final group of fewer than `ratio` steps at the end of the
epoch triggers no extra (spurious) generator update — exact proportionality
holds precisely when `ratio` divides the batch count. -/
theorem update_ratio_floor {α : Type} (shuffles : ℕ → List α → List α)
    (raw : List α) (bs ratio : ℕ) (hbs : 0 < bs) (_hr : 0 < ratio)
    (hperm : ∀ k, (shuffles k raw).Perm raw) :
    (epochSteps ratio (derivedDataset shuffles raw ratio bs) 1).1
        = ceilDiv (ratio * raw.length) bs ∧
    (epochSteps ratio (derivedDataset shuffles raw ratio bs) 1).2
        = ceilDiv (ratio * raw.length) bs / ratio ∧
    (epochSteps ratio (derivedDataset shuffles raw ratio bs) 1).1
        = ratio * (epochSteps ratio (derivedDataset shuffles raw ratio bs) 1).2
            + ceilDiv (ratio * raw.length) bs % ratio := by
  have h1 := epochCounts_fst shuffles raw bs ratio hbs hperm
  have h2 := epochCounts_snd shuffles raw bs ratio hbs hperm
  refine ⟨h1, h2, ?_⟩
  rw [h1, h2]
  exact (Nat.div_add_mod (ceilDiv (ratio * raw.length) bs) ratio).symm

theorem update_ratio_floor_witness :
    (0 < 2 ∧ 0 < 2 ∧ ∀ k : ℕ, ((fun _ (l : List ℕ) => l) k [0, 1, 2]).Perm [0, 1, 2]) ∧
    ((epochSteps 2 (derivedDataset (fun _ (l : List ℕ) => l) [0, 1, 2] 2 2) 1).1
        = ceilDiv (2 * ([0, 1, 2] : List ℕ).length) 2 ∧
      (epochSteps 2 (derivedDataset (fun _ (l : List ℕ) => l) [0, 1, 2] 2 2) 1).2
        = ceilDiv (2 * ([0, 1, 2] : List ℕ).length) 2 / 2 ∧
      (epochSteps 2 (derivedDataset (fun _ (l : List ℕ) => l) [0, 1, 2] 2 2) 1).1
        = 2 * (epochSteps 2 (derivedDataset (fun _ (l : List ℕ) => l) [0, 1, 2] 2 2) 1).2
            + ceilDiv (2 * ([0, 1, 2] : List ℕ).length) 2 % 2) :=
  ⟨⟨by decide, by decide, fun _ => List.Perm.refl _⟩,
    update_ratio_floor (fun _ l => l) [0, 1, 2] 2 2 (by decide) (by decide)
      (fun _ => List.Perm.refl _)⟩

/-- Claim C3, counterexample: in the end-to-end scenario (100 examples,
`batch_size=16`, `generator_training_ratio=5`, `epochs=1`), `train` performs
32 discriminator updates and 6 generator updates — not `⌈100/16⌉·5 = 35` and
`⌈100/16⌉ = 7` as claimed: the dataset view repeats the examples *before*
batching, so an epoch has `⌈(100·5)/16⌉ = 32` batches, not `⌈100/16⌉·5`. -/
theorem end_to_end_counterexample :
    (trainModel (fun _ (l : List ℕ) => l) (List.range 100) 16 5 1 10 false true).1 = 32 ∧
    ¬ ((32 : ℕ) = 35) := by
  have h := trainModel_scenario_eval (fun _ (l : List ℕ) => l) (List.range 100)
    (by decide) (fun _ => List.Perm.refl _)
  rw [h]
  exact ⟨rfl, by decide⟩

/-- Claim C3, amended: for a run with a dataset of 100 examples,
`batch_size=16`, `generator_training_ratio=5` and `epochs=1`, `train` performs
exactly `⌈(100·5)/16⌉ = 32` discriminator updates and `⌊32/5⌋ = 6` generator
updates, and makes exactly 2 example-export calls — one tagged epoch 0 before
training and one tagged epoch 1 after — given the derived dataset view that
shuffles, repeats `generator_training_ratio` times, and batches by
`batch_size`. -/
theorem end_to_end_scenario {α : Type} (shuffles : ℕ → List α → List α)
    (raw : List α) (hlen : raw.length = 100)
    (hperm : ∀ k, (shuffles k raw).Perm raw) :
    trainModel shuffles raw 16 5 1 10 false true
      = (32, 6, [TrainEvent.exportExamples 0, TrainEvent.exportExamples 1]) :=
  trainModel_scenario_eval shuffles raw hlen hperm

theorem end_to_end_scenario_witness :
    ((List.range 100).length = 100 ∧
      ∀ k : ℕ, ((fun _ (l : List ℕ) => l) k (List.range 100)).Perm (List.range 100)) ∧
    trainModel (fun _ (l : List ℕ) => l) (List.range 100) 16 5 1 10 false true
      = (32, 6, [TrainEvent.exportExamples 0, TrainEvent.exportExamples 1]) :=
  ⟨⟨by decide, fun _ => List.Perm.refl _⟩,
    end_to_end_scenario (fun _ l => l) (List.range 100) (by decide)
      (fun _ => List.Perm.refl _)⟩

/-- Claim C4: in every call to `_train_step`, the discriminator outputs are
checked to have final dimension exactly 1 (`assert d_real.shape[-1] == 1`,
`assert d_fake.shape[-1] == 1`); the step aborts (returns with the abort flag
`true`) precisely when one of the checks fails, and a failing step leaves both
parameter sets untouched because the assertions run before either
`apply_gradients` call; under the precondition that the discriminator's output
last dimension is 1, the failure branch is unreachable. -/
theorem train_step_assert_guard {GP DP : Type} (d_real_shape d_fake_shape : List ℕ)
    (train_generator train_discriminator : Bool)
    (apply_gen : GP → GP) (apply_disc : DP → DP) (g_params : GP) (d_params : DP) :
    trainStepModel d_real_shape d_fake_shape train_generator train_discriminator
        apply_gen apply_disc g_params d_params
      = if d_real_shape.getLast? = some 1 ∧ d_fake_shape.getLast? = some 1
          then ((if train_generator then apply_gen g_params else g_params,
                 if train_discriminator then apply_disc d_params else d_params), false)
          else ((g_params, d_params), true) := by
  unfold trainStepModel
  by_cases h1 : d_real_shape.getLast? = some 1 <;>
    by_cases h2 : d_fake_shape.getLast? = some 1 <;>
      simp [h1, h2]

/-- Claim C6: the interpolated sample is `interp = X + α·(X_gen − X)` with one
coefficient per example broadcast across all non-batch axes; for every real
batch `X` and generated batch `X_gen` of matching shape, if `α = 0` for all
examples then `interp = X` exactly, and if `α = 1` for all examples then
`interp = X_gen` exactly. -/
theorem interpolation_boundary (X X_gen : List (List ℝ))
    (h : List.Forall₂ (fun (x g : List ℝ) => x.length = g.length) X X_gen) :
    interpolate (List.replicate X.length 0) X X_gen = X ∧
    interpolate (List.replicate X.length 1) X X_gen = X_gen := by
  induction X generalizing X_gen with
  | nil =>
    cases h
    simp [interpolate]
  | cons x X' ih =>
    cases h with
    | cons hrow htail =>
      rename_i g G'
      have ihp := ih G' htail
      unfold interpolate at ihp ⊢
      simp only [List.length_cons, List.replicate_succ, List.zip_cons_cons,
        List.zipWith_cons_cons]
      constructor
      · rw [interpolate_row_zero x g hrow]
        exact congrArg (fun t => x :: t) ihp.1
      · rw [interpolate_row_one x g hrow]
        exact congrArg (fun t => g :: t) ihp.2

theorem interpolation_boundary_witness :
    List.Forall₂ (fun (x g : List ℝ) => x.length = g.length) [[1, 2]] [[3, 4]] ∧
    (interpolate (List.replicate ([[(1 : ℝ), 2]] : List (List ℝ)).length 0)
        [[1, 2]] [[3, 4]] = [[1, 2]] ∧
      interpolate (List.replicate ([[(1 : ℝ), 2]] : List (List ℝ)).length 1)
        [[1, 2]] [[3, 4]] = [[3, 4]]) :=
  ⟨by simp, interpolation_boundary [[1, 2]] [[3, 4]] (by simp)⟩

/-- Claim C7: during `train`, a checkpoint (bundling generator parameters,
discriminator parameters and both optimizer states) is persisted at the end of
epoch `e` (1-based) if and only if a checkpoint destination was configured at
construction and `e mod epochs_per_save = 0`; in particular, with no
destination configured nothing is ever persisted.  The hypotheses restrict to
configurations on which the source program completes the run (positive batch
size, ratio, dataset and save cadence). -/
theorem checkpoint_cadence {α : Type} (shuffles : ℕ → List α → List α)
    (raw : List α) (bs ratio epochs epochsPerSave : ℕ) (ckpt exp : Bool)
    (_hbs : 0 < bs) (_hr : 0 < ratio) (_hraw : 0 < raw.length)
    (_hsave : 0 < epochsPerSave) :
    ∀ e : ℕ,
      TrainEvent.saveCheckpoint e
          ∈ (trainModel shuffles raw bs ratio epochs epochsPerSave ckpt exp).2.2
        ↔ (ckpt = true ∧ 1 ≤ e ∧ e ≤ epochs ∧ e % epochsPerSave = 0) := by
  intro e
  simp only [trainModel, List.mem_append]
  rw [trainEpochs_checkpoint_mem]
  constructor
  · rintro (h | h)
    · split at h <;> simp at h
    · exact h
  · exact fun h => Or.inr h

theorem checkpoint_cadence_witness :
    ((0 : ℕ) < 1 ∧ (0 : ℕ) < 1 ∧ 0 < ([0] : List ℕ).length ∧ (0 : ℕ) < 2) ∧
    (TrainEvent.saveCheckpoint 2
        ∈ (trainModel (fun _ (l : List ℕ) => l) [0] 1 1 2 2 true false).2.2
      ↔ (true = true ∧ 1 ≤ 2 ∧ 2 ≤ 2 ∧ 2 % 2 = 0)) :=
  ⟨⟨by decide, by decide, by decide, by decide⟩,
    checkpoint_cadence (fun _ l => l) [0] 1 1 2 2 true false
      (by decide) (by decide) (by decide) (by decide) 2⟩

/-! ## Embedding of `utils/spectral.py`

Tensors over `ℝ`; a `[batch, time, bins]` tensor is `List (List (List ℝ))`,
a `[batch, time, bins, 2]` tensor is `List (List (List (ℝ × ℝ)))` (the trailing
channel pair).  `n_mel_bins` is an `ℕ` with `0` standing for Python `None`
(the source tests it with bare truthiness `if n_mel_bins:`, under which both
`None` and `0` skip the mel branch). -/

/-- The constant `_EPSILON = 1e-6` (spectral.py line 21). -/
def EPSILON : ℝ := 1 / 1000000

/-- A tensor argument that may arrive with or without the leading batch axis;
the source promotes the unbatched form via `tf.expand_dims(·, 0)`. -/
inductive MaybeBatched (α : Type) where
  | single (x : α)
  | batched (xs : List α)

def MaybeBatched.toBatched {α : Type} : MaybeBatched α → List α
  | .single x => [x]
  | .batched xs => xs

/-- External numeric primitives of `utils/spectral.py`, carried as parameters:
* `stft fl fs w`: `tf.signal.stft(w, frame_length=fl, frame_step=fs, pad_end=True,
  window_fn=tf.signal.hamming_window)` on one waveform, giving `[frames, bins]`
  complex frames;
* `inverse_stft fl fs s`: `tf.signal.inverse_stft` with the matched synthesis
  window `tf.signal.inverse_stft_window_fn(fs, forward_window_fn=hamming)`;
* `linear_to_mel_weight_matrix nMel nSpec lo hi`:
  `tf.signal.linear_to_mel_weight_matrix(nMel, nSpec, 16000, lo, hi)`, a
  `[nSpec, nMel]` matrix (the sample rate is the fixed `_SAMPLE_RATE`);
* `pinv`: `tf.linalg.pinv`;
* `griffinlim_core nIter winLen hopLen S phase0`: the deterministic part of
  `librosa.core.griffinlim(S, n_iter=nIter, win_length=winLen, hop_length=hopLen,
  pad_mode='constant', center=False)` once its initial phase estimate `phase0`
  is fixed. -/
structure SpectralPrims where
  stft : ℕ → ℕ → List ℝ → List (List ℂ)
  inverse_stft : ℕ → ℕ → List (List ℂ) → List ℝ
  linear_to_mel_weight_matrix : ℕ → ℕ → ℝ → ℝ → List (List ℝ)
  pinv : List (List ℝ) → List (List ℝ)
  griffinlim_core : ℕ → ℕ → ℕ → List (List ℝ) → List (List ℝ) → List ℝ

def dotProd (v w : List ℝ) : ℝ := (List.zipWith (· * ·) v w).sum

/-- Embedding of `tf.tensordot(v, m, 1)` for a row vector `v`: contract the last axis of the
input against the first axis of `m`. -/
def vecMatMul (v : List ℝ) (m : List (List ℝ)) : List ℝ :=
  m.transpose.map (dotProd v)

/-- The static shape entry `t.shape[-1]` of a (rectangular) `[batch, time, bins]`
tensor. -/
def lastDim3 (t : List (List (List ℝ))) : ℕ := ((t.headD []).headD []).length

/-- Embedding of `_linear_to_mel_scale` (spectral.py lines 26-51). -/
def linear_to_mel_scale (P : SpectralPrims) (linear_scale_in : List (List (List ℝ)))
    (n_mel_bins : ℕ) (lo hi : ℝ) : List (List (List ℝ)) :=
  let M := P.linear_to_mel_weight_matrix n_mel_bins (lastDim3 linear_scale_in) lo hi
  linear_scale_in.map (·.map fun v => vecMatMul v M)

/-- Embedding of `_mel_to_linear_scale` (spectral.py lines 53-80): tensordot against the
pseudo-inverse of the filterbank. -/
def mel_to_linear_scale (P : SpectralPrims) (mel_scale_in : List (List (List ℝ)))
    (n_stft_bins : ℕ) (lo hi : ℝ) : List (List (List ℝ)) :=
  let M := P.linear_to_mel_weight_matrix (lastDim3 mel_scale_in) n_stft_bins lo hi
  let Minv := P.pinv M
  mel_scale_in.map (·.map fun v => vecMatMul v Minv)

/-- Embedding of `tf.concat([tf.expand_dims(a, 3), tf.expand_dims(b, 3)], axis=-1)`:
pair the two channel tensors pointwise. -/
def stack3 (a b : List (List (List ℝ))) : List (List (List (ℝ × ℝ))) :=
  List.zipWith (fun x y => List.zipWith List.zip x y) a b

/-- The channel slice `t[:, :, :, 0]`. -/
def channel0 (t : List (List (List (ℝ × ℝ)))) : List (List (List ℝ)) :=
  t.map (·.map (·.map Prod.fst))

/-- The channel slice `t[:, :, :, 1]`. -/
def channel1 (t : List (List (List (ℝ × ℝ)))) : List (List (List ℝ)) :=
  t.map (·.map (·.map Prod.snd))

/-- Embedding of `waveform_2_stft` (spectral.py lines 82-125). -/
def waveform_2_stft (P : SpectralPrims) (waveform_in : MaybeBatched (List ℝ))
    (frame_length frame_step n_mel_bins : ℕ) (lo hi : ℝ) :
    List (List (List (ℝ × ℝ))) :=
  let waveform := waveform_in.toBatched
  let stft := waveform.map (P.stft frame_length frame_step)
  let real := stft.map (·.map fun fr => (fr.map Complex.re).dropLast)
  let img := stft.map (·.map fun fr => (fr.map Complex.im).dropLast)
  let real := if n_mel_bins ≠ 0 then linear_to_mel_scale P real n_mel_bins lo hi else real
  let img := if n_mel_bins ≠ 0 then linear_to_mel_scale P img n_mel_bins lo hi else img
  stack3 real img

/-- Embedding of `stft_2_waveform` (spectral.py lines 127-172). -/
def stft_2_waveform (P : SpectralPrims) (stft_in : MaybeBatched (List (List (ℝ × ℝ))))
    (frame_length frame_step n_mel_bins : ℕ) (lo hi : ℝ) : List (List ℝ) :=
  let stft := stft_in.toBatched
  let real := stft.map (·.map (·.map Prod.fst))
  let img := stft.map (·.map (·.map Prod.snd))
  let real := if n_mel_bins ≠ 0
    then mel_to_linear_scale P real (frame_length / 2) lo hi else real
  let img := if n_mel_bins ≠ 0
    then mel_to_linear_scale P img (frame_length / 2) lo hi else img
  let real := real.map (·.map fun fr => fr ++ [0])
  let img := img.map (·.map fun fr => fr ++ [0])
  let stftC := List.zipWith
    (fun x y => List.zipWith (fun r s => List.zipWith (fun a b => (⟨a, b⟩ : ℂ)) r s) x y)
    real img
  stftC.map (P.inverse_stft frame_length frame_step)

/-- NumPy/TensorFlow float mod (result has the sign of the divisor):
`x % y = x - y * ⌊x / y⌋`. -/
def fmod (x y : ℝ) : ℝ := x - y * ⌊x / y⌋

/-- The phase wrap `(phase + np.pi) % (2 * np.pi) - np.pi`
(spectral.py line 373), applied elementwise. -/
def wrapPhase (p : ℝ) : ℝ := fmod (p + Real.pi) (2 * Real.pi) - Real.pi

/-- Columnwise running sums continuing from `acc`. -/
def cumsumFrom (acc : List ℝ) : List (List ℝ) → List (List ℝ)
  | [] => []
  | r :: rs =>
    let s := List.zipWith (· + ·) acc r
    s :: cumsumFrom s rs

/-- Embedding of `tf.cumsum(·, axis=-2)` on one `[time, bins]` matrix: running sums down the
time axis. -/
def cumsumTime : List (List ℝ) → List (List ℝ)
  | [] => []
  | r :: rs => r :: cumsumFrom r rs

/-- The phase-recovery stage of `spectogram_2_waveform` for the
instantaneous-frequency representation (spectral.py lines 371-373): cumulative
sum along the time axis, then the elementwise wrap. -/
def recoverPhase (ifreq : List (List ℝ)) : List (List ℝ) :=
  (cumsumTime ifreq).map (List.map wrapPhase)

open Classical in
/-- One correction term of `np.unwrap` (default `discont = π`, `period = 2π`)
for a consecutive difference `d`: the wrapped difference, with the boundary
`-π` flipped to `π` for positive `d`, minus `d`; differences smaller than the
discontinuity threshold are left untouched. -/
def unwrapDelta (d : ℝ) : ℝ :=
  let ddmod0 := fmod (d + Real.pi) (2 * Real.pi) - Real.pi
  let ddmod := if ddmod0 = -Real.pi ∧ 0 < d then Real.pi else ddmod0
  if |d| < Real.pi then 0 else ddmod - d

/-- Inclusive prefix sums (`np.cumsum`). -/
def cumsumList (l : List ℝ) : List ℝ := (l.scanl (· + ·) 0).tail

/-- Embedding of `np.unwrap` along the last axis on one row (spectral.py line 230 applies it
with NumPy's default `axis=-1`): the head element is kept and each later
element receives the accumulated correction of the differences before it. -/
def unwrapList (p : List ℝ) : List ℝ :=
  match p with
  | [] => []
  | x :: rest =>
    let dd := List.zipWith (· - ·) rest p
    x :: List.zipWith (· + ·) rest (cumsumList (dd.map unwrapDelta))

/-- Embedding of `np.concatenate([np.expand_dims(phase[:, 0, :], -2), np.diff(phase, axis=-2)],
axis=-2)` on one `[time, bins]` matrix (spectral.py lines 231-232): keep the
first time frame, then take consecutive differences along time.  (NumPy raises
on an empty time axis; the embedding returns `[]` there.) -/
def instFreqTime (rows : List (List ℝ)) : List (List ℝ) :=
  match rows with
  | [] => []
  | r :: _ =>
    r :: List.zipWith (fun nxt prv => List.zipWith (· - ·) nxt prv) rows.tail rows

/-- Embedding of `waveform_2_spectogram` (spectral.py lines 174-237). -/
def waveform_2_spectogram (P : SpectralPrims) (waveform_in : MaybeBatched (List ℝ))
    (frame_length frame_step : ℕ) (log_magnitude instantaneous_frequency : Bool)
    (n_mel_bins : ℕ) (lo hi : ℝ) : List (List (List (ℝ × ℝ))) :=
  let waveform := waveform_in.toBatched
  let stft := waveform.map (P.stft frame_length frame_step)
  let magnitude := stft.map (·.map fun fr => (fr.map Complex.abs).dropLast)
  let phase := stft.map (·.map fun fr => (fr.map Complex.arg).dropLast)
  let magnitude := if n_mel_bins ≠ 0
    then linear_to_mel_scale P magnitude n_mel_bins lo hi else magnitude
  let phase := if n_mel_bins ≠ 0
    then linear_to_mel_scale P phase n_mel_bins lo hi else phase
  let magnitude := if log_magnitude
    then magnitude.map (·.map (·.map fun m => Real.log (m + EPSILON))) else magnitude
  let phase := if instantaneous_frequency
    then (phase.map (·.map unwrapList)).map instFreqTime else phase
  stack3 magnitude phase

/-- Embedding of `waveform_2_magnitude` (spectral.py lines 239-274): a wrapper for
`waveform_2_spectogram` that removes the phase component
(`magnitude = spectogram[:, :, :, 0]`); the wrapped call leaves
`instantaneous_frequency` at its default `True`. -/
def waveform_2_magnitude (P : SpectralPrims) (waveform_in : MaybeBatched (List ℝ))
    (frame_length frame_step : ℕ) (log_magnitude : Bool)
    (n_mel_bins : ℕ) (lo hi : ℝ) : List (List (List ℝ)) :=
  let spectogram := waveform_2_spectogram P waveform_in frame_length frame_step
    log_magnitude true n_mel_bins lo hi
  channel0 spectogram

/-- Spec side of the refinement claim C10: the magnitude channel computed
directly and independently — batch promotion, forward STFT, `tf.abs`, Nyquist
truncation, optional mel compression, optional log — with no spectrogram or
phase computation involved. -/
def magnitudeDirectSpec (P : SpectralPrims) (waveform_in : MaybeBatched (List ℝ))
    (frame_length frame_step : ℕ) (log_magnitude : Bool)
    (n_mel_bins : ℕ) (lo hi : ℝ) : List (List (List ℝ)) :=
  let waveform := waveform_in.toBatched
  let stft := waveform.map (P.stft frame_length frame_step)
  let magnitude := stft.map (·.map fun fr => (fr.map Complex.abs).dropLast)
  let magnitude := if n_mel_bins ≠ 0
    then linear_to_mel_scale P magnitude n_mel_bins lo hi else magnitude
  if log_magnitude
    then magnitude.map (·.map (·.map fun m => Real.log (m + EPSILON))) else magnitude

/-- Embedding of `spectogram_2_waveform` (spectral.py lines 327-389). -/
def spectogram_2_waveform (P : SpectralPrims)
    (spectogram_in : MaybeBatched (List (List (ℝ × ℝ))))
    (frame_length frame_step : ℕ) (log_magnitude instantaneous_frequency : Bool)
    (n_mel_bins : ℕ) (lo hi : ℝ) : List (List ℝ) :=
  let spectogram := spectogram_in.toBatched
  let magnitude := spectogram.map (·.map (·.map Prod.fst))
  let phase := spectogram.map (·.map (·.map Prod.snd))
  let magnitude := if n_mel_bins ≠ 0
    then mel_to_linear_scale P magnitude (frame_length / 2) lo hi else magnitude
  let phase := if n_mel_bins ≠ 0
    then mel_to_linear_scale P phase (frame_length / 2) lo hi else phase
  let magnitude := if log_magnitude
    then magnitude.map (·.map (·.map fun m => Real.exp m - EPSILON)) else magnitude
  let phase := if instantaneous_frequency then phase.map recoverPhase else phase
  let magnitude := magnitude.map (·.map fun fr => fr ++ [0])
  let phase := phase.map (·.map fun fr => fr ++ [0])
  let real := List.zipWith
    (fun ms ps => List.zipWith (fun mr pr =>
      List.zipWith (fun m p => m * Real.cos p) mr pr) ms ps) magnitude phase
  let img := List.zipWith
    (fun ms ps => List.zipWith (fun mr pr =>
      List.zipWith (fun m p => m * Real.sin p) mr pr) ms ps) magnitude phase
  let stftC := List.zipWith
    (fun x y => List.zipWith (fun r s => List.zipWith (fun a b => (⟨a, b⟩ : ℂ)) r s) x y)
    real img
  stftC.map (P.inverse_stft frame_length frame_step)

/-- A `map` over a list threading an RNG draw-counter through the calls. -/
def mapWithState {α β : Type} (f : α → ℕ → β × ℕ) : List α → ℕ → List β × ℕ
  | [], w => ([], w)
  | x :: xs, w =>
    let yw := f x w
    let rest := mapWithState f xs yw.2
    (yw.1 :: rest.1, rest.2)

/-- Draw one uniform angle per spectrogram cell (row-major) from the ambient
RNG stream `randSeq`, advancing the draw counter. -/
def drawPhase (randSeq : ℕ → ℝ) (rows : List (List ℝ)) (w : ℕ) :
    List (List ℝ) × ℕ :=
  mapWithState
    (fun r w => ((List.range r.length).map fun j => randSeq (w + j), w + r.length))
    rows w

/-- Modelled from the spec: `librosa.core.griffinlim` (an external collaborator:
the spec's magnitude → waveform row says phase is "estimated via Griffin-Lim
iterative phase reconstruction (default 16 iterations); this is lossy and
non-deterministic…").  Per the librosa contract the call in spectral.py passes
neither `init` nor `random_state`, so the iteration starts from a random phase
estimate — one draw per spectrogram cell — taken from the process-wide NumPy
RNG.  The model draws that initial estimate from the ambient stream `randSeq`
at the current draw counter and delegates the deterministic iteration to the
`griffinlim_core` primitive; the source transposes each magnitude matrix to
`[freq, time]` before the call. -/
def griffinlimModel (P : SpectralPrims) (randSeq : ℕ → ℝ)
    (n_iter frame_length frame_step : ℕ) (m : List (List ℝ)) (w : ℕ) :
    List ℝ × ℕ :=
  let S := m.transpose
  let phw := drawPhase randSeq S w
  (P.griffinlim_core n_iter frame_length frame_step S phw.1, phw.2)

/-- Embedding of `magnitude_2_waveform` (spectral.py lines 276-325), with the ambient RNG
draw counter threaded explicitly (it is consumed by the Griffin-Lim phase
initialization). -/
def magnitude_2_waveform (P : SpectralPrims) (randSeq : ℕ → ℝ)
    (magnitude_in : MaybeBatched (List (List ℝ)))
    (n_iter frame_length frame_step : ℕ) (log_magnitude : Bool)
    (n_mel_bins : ℕ) (lo hi : ℝ) (w : ℕ) : List (List ℝ) × ℕ :=
  let magnitude := magnitude_in.toBatched
  let magnitude := if log_magnitude
    then magnitude.map (·.map (·.map fun m => Real.exp m - EPSILON)) else magnitude
  let magnitude := if n_mel_bins ≠ 0
    then mel_to_linear_scale P magnitude (frame_length / 2) lo hi else magnitude
  let magnitude := magnitude.map (·.map fun fr => fr ++ [0])
  mapWithState (fun m w => griffinlimModel P randSeq n_iter frame_length frame_step m w)
    magnitude w

/-- Number of RNG draws one Griffin-Lim call consumes: one per cell of the
transposed spectrogram. -/
def griffinlimDraws (m : List (List ℝ)) : ℕ := (m.transpose.map List.length).sum

/-- Total RNG draws a `magnitude_2_waveform` call consumes. -/
def magnitude_2_waveform_draws (P : SpectralPrims)
    (magnitude_in : MaybeBatched (List (List ℝ))) (frame_length : ℕ)
    (log_magnitude : Bool) (n_mel_bins : ℕ) (lo hi : ℝ) : ℕ :=
  let magnitude := magnitude_in.toBatched
  let magnitude := if log_magnitude
    then magnitude.map (·.map (·.map fun m => Real.exp m - EPSILON)) else magnitude
  let magnitude := if n_mel_bins ≠ 0
    then mel_to_linear_scale P magnitude (frame_length / 2) lo hi else magnitude
  let magnitude := magnitude.map (·.map fun fr => fr ++ [0])
  (magnitude.map griffinlimDraws).sum

/-! The call forms of the five transform operations whose source bodies
(`waveform_2_stft`, `stft_2_waveform`, `waveform_2_spectogram`,
`spectogram_2_waveform`, `waveform_2_magnitude`) access no ambient state
— no RNG, no module-level mutable variable: a call returns the pure value
and leaves the world untouched. -/

def waveform_2_stft_call (P : SpectralPrims) (waveform_in : MaybeBatched (List ℝ))
    (frame_length frame_step n_mel_bins : ℕ) (lo hi : ℝ) (w : ℕ) :
    List (List (List (ℝ × ℝ))) × ℕ :=
  (waveform_2_stft P waveform_in frame_length frame_step n_mel_bins lo hi, w)

def stft_2_waveform_call (P : SpectralPrims) (stft_in : MaybeBatched (List (List (ℝ × ℝ))))
    (frame_length frame_step n_mel_bins : ℕ) (lo hi : ℝ) (w : ℕ) :
    List (List ℝ) × ℕ :=
  (stft_2_waveform P stft_in frame_length frame_step n_mel_bins lo hi, w)

def waveform_2_spectogram_call (P : SpectralPrims) (waveform_in : MaybeBatched (List ℝ))
    (frame_length frame_step : ℕ) (log_magnitude instantaneous_frequency : Bool)
    (n_mel_bins : ℕ) (lo hi : ℝ) (w : ℕ) :
    List (List (List (ℝ × ℝ))) × ℕ :=
  (waveform_2_spectogram P waveform_in frame_length frame_step log_magnitude
    instantaneous_frequency n_mel_bins lo hi, w)

def spectogram_2_waveform_call (P : SpectralPrims)
    (spectogram_in : MaybeBatched (List (List (ℝ × ℝ))))
    (frame_length frame_step : ℕ) (log_magnitude instantaneous_frequency : Bool)
    (n_mel_bins : ℕ) (lo hi : ℝ) (w : ℕ) : List (List ℝ) × ℕ :=
  (spectogram_2_waveform P spectogram_in frame_length frame_step log_magnitude
    instantaneous_frequency n_mel_bins lo hi, w)

def waveform_2_magnitude_call (P : SpectralPrims) (waveform_in : MaybeBatched (List ℝ))
    (frame_length frame_step : ℕ) (log_magnitude : Bool)
    (n_mel_bins : ℕ) (lo hi : ℝ) (w : ℕ) : List (List (List ℝ)) × ℕ :=
  (waveform_2_magnitude P waveform_in frame_length frame_step log_magnitude
    n_mel_bins lo hi, w)

/-! ## Claim theorems for the transform library: phase recovery -/

theorem fmod_eq_mul_fract (x y : ℝ) (hy : y ≠ 0) :
    fmod x y = y * Int.fract (x / y) := by
  unfold fmod Int.fract
  field_simp

theorem fmod_nonneg (x y : ℝ) (hy : 0 < y) : 0 ≤ fmod x y := by
  rw [fmod_eq_mul_fract x y (ne_of_gt hy)]
  exact mul_nonneg hy.le (Int.fract_nonneg _)

theorem fmod_lt (x y : ℝ) (hy : 0 < y) : fmod x y < y := by
  rw [fmod_eq_mul_fract x y (ne_of_gt hy)]
  calc y * Int.fract (x / y) < y * 1 :=
        (mul_lt_mul_left hy).mpr (Int.fract_lt_one _)
    _ = y := mul_one y

theorem wrapPhase_lower (p : ℝ) : -Real.pi ≤ wrapPhase p := by
  unfold wrapPhase
  have h := fmod_nonneg (p + Real.pi) (2 * Real.pi) (by positivity)
  linarith

theorem wrapPhase_upper (p : ℝ) : wrapPhase p < Real.pi := by
  unfold wrapPhase
  have h := fmod_lt (p + Real.pi) (2 * Real.pi) (by positivity)
  linarith

theorem wrapPhase_congruence (p : ℝ) :
    wrapPhase p = p - 2 * Real.pi * ⌊(p + Real.pi) / (2 * Real.pi)⌋ := by
  unfold wrapPhase fmod
  ring

theorem wrapPhase_pi : wrapPhase Real.pi = -Real.pi := by
  have h2 : Real.pi + Real.pi = 2 * Real.pi := by ring
  have hne : (2 : ℝ) * Real.pi ≠ 0 := by positivity
  unfold wrapPhase fmod
  rw [h2, div_self hne]
  norm_num

/-- Claim C8, counterexample: on the spectrogram whose instantaneous-frequency
channel is the single cell `π` (one frame, one bin), the phase recovered by
`spectogram_2_waveform` is `-π` — and `¬(-π < -π)`: the wrap
`(phase + π) % (2π) − π` lands in `[−π, π)`, not in the claimed `(−π, π]`. -/
theorem phase_wrap_counterexample :
    recoverPhase [[Real.pi]] = [[-Real.pi]] ∧ ¬ (-Real.pi < -Real.pi) :=
  ⟨by simp [recoverPhase, cumsumTime, cumsumFrom, wrapPhase_pi], lt_irrefl _⟩

/-- Claim C8, amended: when `instantaneous_frequency` is true,
`spectogram_2_waveform` recovers phase by cumulatively summing the
instantaneous-frequency channel along the time axis and wrapping to the
interval `[−π, π)`: every recovered phase value `p` satisfies `−π ≤ p < π`
and is congruent modulo `2π` to the corresponding cumulative sum. -/
theorem phase_recovery_range (ifreq : List (List ℝ)) (p : ℝ)
    (hp : p ∈ (recoverPhase ifreq).flatten) :
    (-Real.pi ≤ p ∧ p < Real.pi) ∧
    ∃ c ∈ (cumsumTime ifreq).flatten, ∃ k : ℤ, p = c - 2 * Real.pi * k := by
  unfold recoverPhase at hp
  rw [List.mem_flatten] at hp
  obtain ⟨l, hl, hpl⟩ := hp
  rw [List.mem_map] at hl
  obtain ⟨row, hrow, rfl⟩ := hl
  rw [List.mem_map] at hpl
  obtain ⟨c, hc, rfl⟩ := hpl
  refine ⟨⟨wrapPhase_lower c, wrapPhase_upper c⟩,
    c, List.mem_flatten.mpr ⟨row, hrow, hc⟩,
    ⌊(c + Real.pi) / (2 * Real.pi)⌋, wrapPhase_congruence c⟩

theorem phase_recovery_range_witness :
    -Real.pi ∈ (recoverPhase [[Real.pi]]).flatten ∧
    ((-Real.pi ≤ -Real.pi ∧ -Real.pi < Real.pi) ∧
      ∃ c ∈ (cumsumTime [[Real.pi]]).flatten, ∃ k : ℤ,
        -Real.pi = c - 2 * Real.pi * k) := by
  have hmem : -Real.pi ∈ (recoverPhase [[Real.pi]]).flatten := by
    simp [recoverPhase, cumsumTime, cumsumFrom, wrapPhase_pi]
  exact ⟨hmem, phase_recovery_range [[Real.pi]] (-Real.pi) hmem⟩

/-! ## Claim theorems for the transform library: purity and state -/

theorem mapWithState_snd {α β : Type} (f : α → ℕ → β × ℕ) (g : α → ℕ)
    (hf : ∀ x w, (f x w).2 = w + g x) :
    ∀ (l : List α) (w : ℕ), (mapWithState f l w).2 = w + (l.map g).sum := by
  intro l
  induction l with
  | nil => intro w; simp [mapWithState]
  | cons x xs ih =>
    intro w
    simp only [mapWithState, List.map_cons, List.sum_cons]
    rw [ih, hf]
    ring

theorem drawPhase_snd (randSeq : ℕ → ℝ) (rows : List (List ℝ)) (w : ℕ) :
    (drawPhase randSeq rows w).2 = w + (rows.map List.length).sum :=
  mapWithState_snd _ List.length (fun _ _ => rfl) rows w

theorem griffinlimModel_snd (P : SpectralPrims) (randSeq : ℕ → ℝ)
    (n_iter frame_length frame_step : ℕ) (m : List (List ℝ)) (w : ℕ) :
    (griffinlimModel P randSeq n_iter frame_length frame_step m w).2
      = w + griffinlimDraws m := by
  unfold griffinlimModel griffinlimDraws
  exact drawPhase_snd randSeq m.transpose w

theorem magnitude_2_waveform_state (P : SpectralPrims) (randSeq : ℕ → ℝ)
    (magnitude_in : MaybeBatched (List (List ℝ)))
    (n_iter frame_length frame_step : ℕ) (log_magnitude : Bool)
    (n_mel_bins : ℕ) (lo hi : ℝ) (w : ℕ) :
    (magnitude_2_waveform P randSeq magnitude_in n_iter frame_length frame_step
        log_magnitude n_mel_bins lo hi w).2
      = w + magnitude_2_waveform_draws P magnitude_in frame_length log_magnitude
          n_mel_bins lo hi := by
  unfold magnitude_2_waveform magnitude_2_waveform_draws
  exact mapWithState_snd _ griffinlimDraws
    (fun m w => griffinlimModel_snd P randSeq n_iter frame_length frame_step m w) _ w

/-- Claim C9, amended: `waveform_2_stft`, `stft_2_waveform`,
`waveform_2_spectogram`, `spectogram_2_waveform` and `waveform_2_magnitude`
are pure and deterministic — a call returns the value of a fixed function of
its arguments and leaves the ambient state untouched — while
`magnitude_2_waveform` consumes the ambient RNG (one draw per spectrogram cell
of its Griffin-Lim phase initialization), advancing state observable by every
later call, so the purity claim fails for it. -/
theorem spectral_purity (P : SpectralPrims) (randSeq : ℕ → ℝ)
    (wv : MaybeBatched (List ℝ)) (st sp : MaybeBatched (List (List (ℝ × ℝ))))
    (mg : MaybeBatched (List (List ℝ)))
    (frame_length frame_step n_iter n_mel_bins : ℕ)
    (log_magnitude instantaneous_frequency : Bool) (lo hi : ℝ) (w : ℕ) :
    waveform_2_stft_call P wv frame_length frame_step n_mel_bins lo hi w
        = (waveform_2_stft P wv frame_length frame_step n_mel_bins lo hi, w) ∧
    stft_2_waveform_call P st frame_length frame_step n_mel_bins lo hi w
        = (stft_2_waveform P st frame_length frame_step n_mel_bins lo hi, w) ∧
    waveform_2_spectogram_call P wv frame_length frame_step log_magnitude
        instantaneous_frequency n_mel_bins lo hi w
        = (waveform_2_spectogram P wv frame_length frame_step log_magnitude
            instantaneous_frequency n_mel_bins lo hi, w) ∧
    spectogram_2_waveform_call P sp frame_length frame_step log_magnitude
        instantaneous_frequency n_mel_bins lo hi w
        = (spectogram_2_waveform P sp frame_length frame_step log_magnitude
            instantaneous_frequency n_mel_bins lo hi, w) ∧
    waveform_2_magnitude_call P wv frame_length frame_step log_magnitude
        n_mel_bins lo hi w
        = (waveform_2_magnitude P wv frame_length frame_step log_magnitude
            n_mel_bins lo hi, w) ∧
    (magnitude_2_waveform P randSeq mg n_iter frame_length frame_step
        log_magnitude n_mel_bins lo hi w).2
        = w + magnitude_2_waveform_draws P mg frame_length log_magnitude
            n_mel_bins lo hi :=
  ⟨rfl, rfl, rfl, rfl, rfl,
    magnitude_2_waveform_state P randSeq mg n_iter frame_length frame_step
      log_magnitude n_mel_bins lo hi w⟩

/-- A concrete primitive record, used only to evaluate counterexamples: trivial
transforms, and a Griffin-Lim core whose output retains the initial phase
estimate (a legitimate instantiation of the abstract `griffinlim_core`). -/
def probePrims : SpectralPrims where
  stft := fun _ _ _ => []
  inverse_stft := fun _ _ _ => []
  linear_to_mel_weight_matrix := fun _ _ _ _ => []
  pinv := fun m => m
  griffinlim_core := fun _ _ _ _ phase0 => phase0.flatten

/-- Claim C9, counterexample: a `magnitude_2_waveform` call on a one-cell
magnitude advances the ambient RNG state (so a later call observes the
change), and a second call with identical arguments returns a different
waveform — refuting "two calls with identical arguments return identical
outputs, and no call changes any state observable by a later call". -/
theorem spectral_purity_counterexample :
    (magnitude_2_waveform probePrims (fun n => (n : ℝ)) (.single [[5]]) 16 512 128
        false 0 0 8000 0).2 ≠ 0 ∧
    (magnitude_2_waveform probePrims (fun n => (n : ℝ)) (.single [[5]]) 16 512 128
        false 0 0 8000
        ((magnitude_2_waveform probePrims (fun n => (n : ℝ)) (.single [[5]]) 16 512 128
            false 0 0 8000 0).2)).1
      ≠ (magnitude_2_waveform probePrims (fun n => (n : ℝ)) (.single [[5]]) 16 512 128
          false 0 0 8000 0).1 := by
  constructor
  · show (2 : ℕ) ≠ 0
    decide
  · show ([[((2 : ℕ) : ℝ), ((3 : ℕ) : ℝ)]] : List (List ℝ))
        ≠ [[((0 : ℕ) : ℝ), ((1 : ℕ) : ℝ)]]
    intro h
    simp at h

/-! ## Claim theorems for the transform library: the magnitude projection

Supporting shape lemmas: the trailing-channel concatenation built by
`waveform_2_spectogram` pairs the magnitude and phase tensors pointwise, so
extracting channel 0 returns the magnitude tensor exactly when the two
tensors agree in shape; the lemmas below track shapes through every stage of
the pipeline. -/

theorem vecMatMul_length (v : List ℝ) (m : List (List ℝ)) :
    (vecMatMul v m).length = m.transpose.length := by
  simp [vecMatMul]

theorem cumsumList_length (l : List ℝ) : (cumsumList l).length = l.length := by
  simp [cumsumList, List.length_scanl]

theorem unwrapList_length (p : List ℝ) : (unwrapList p).length = p.length := by
  cases p with
  | nil => rfl
  | cons x rest =>
    simp only [unwrapList, List.length_cons, List.length_zipWith, List.length_map,
      cumsumList_length]
    omega

theorem instFreqTime_length (rows : List (List ℝ)) :
    (instFreqTime rows).length = rows.length := by
  cases rows with
  | nil => rfl
  | cons r0 rs =>
    simp only [instFreqTime, List.length_cons, List.length_zipWith, List.tail_cons]
    omega

theorem zipWith_rows_length (f : ℝ → ℝ → ℝ) :
    ∀ (a b : List (List ℝ)) (c : ℕ), (∀ r ∈ a, r.length = c) →
      (∀ r ∈ b, r.length = c) →
      ∀ r ∈ List.zipWith (fun x y => List.zipWith f x y) a b, r.length = c := by
  intro a
  induction a with
  | nil => intro b c _ _ r hr; simp at hr
  | cons x a' ih =>
    intro b c ha hb r hr
    cases b with
    | nil => simp at hr
    | cons y b' =>
      simp only [List.zipWith_cons_cons, List.mem_cons] at hr
      rcases hr with rfl | hr
      · rw [List.length_zipWith, ha x (by simp), hb y (by simp)]
        exact Nat.min_self c
      · exact ih b' c (fun r h => ha r (List.mem_cons_of_mem _ h))
          (fun r h => hb r (List.mem_cons_of_mem _ h)) r hr

theorem instFreqTime_rows (rows : List (List ℝ)) (c : ℕ)
    (h : ∀ r ∈ rows, r.length = c) : ∀ r ∈ instFreqTime rows, r.length = c := by
  cases rows with
  | nil => intro r hr; simp [instFreqTime] at hr
  | cons r0 rs =>
    intro r hr
    simp only [instFreqTime, List.mem_cons] at hr
    rcases hr with rfl | hr
    · exact h r (by simp)
    · exact zipWith_rows_length _ (r0 :: rs).tail (r0 :: rs) c
        (fun x hx => h x (List.mem_of_mem_tail hx)) h r hr

theorem forall₂_len_of_lengths :
    ∀ (x y : List (List ℝ)) (c : ℕ), (∀ r ∈ x, r.length = c) →
      (∀ s ∈ y, s.length = c) → x.length = y.length →
      List.Forall₂ (fun (r s : List ℝ) => r.length = s.length) x y := by
  intro x
  induction x with
  | nil =>
    intro y c _ _ hl
    cases y with
    | nil => exact List.Forall₂.nil
    | cons s y' => simp at hl
  | cons r x' ih =>
    intro y c hx hy hl
    cases y with
    | nil => simp at hl
    | cons s y' =>
      simp only [List.length_cons, Nat.add_right_cancel_iff] at hl
      refine List.Forall₂.cons ?_ (ih y' c (fun r h => hx r (List.mem_cons_of_mem _ h))
        (fun s h => hy s (List.mem_cons_of_mem _ h)) hl)
      rw [hx r (by simp), hy s (by simp)]

theorem forall₂_of_rows :
    ∀ (A B : List (List (List ℝ))) (c : ℕ),
      (∀ x ∈ A, ∀ r ∈ x, r.length = c) → (∀ y ∈ B, ∀ s ∈ y, s.length = c) →
      A.map List.length = B.map List.length →
      List.Forall₂
        (fun x y => List.Forall₂ (fun (r s : List ℝ) => r.length = s.length) x y)
        A B := by
  intro A
  induction A with
  | nil =>
    intro B c _ _ hc
    cases B with
    | nil => exact List.Forall₂.nil
    | cons y B' => simp at hc
  | cons x A' ih =>
    intro B c hA hB hc
    cases B with
    | nil => simp at hc
    | cons y B' =>
      simp only [List.map_cons, List.cons.injEq] at hc
      refine List.Forall₂.cons
        (forall₂_len_of_lengths x y c (hA x (by simp)) (hB y (by simp)) hc.1)
        (ih B' c (fun x h => hA x (List.mem_cons_of_mem _ h))
          (fun y h => hB y (List.mem_cons_of_mem _ h)) hc.2)

theorem stack2_fst (x y : List (List ℝ))
    (h : List.Forall₂ (fun (r s : List ℝ) => r.length = s.length) x y) :
    (List.zipWith List.zip x y).map (·.map Prod.fst) = x := by
  induction h with
  | nil => rfl
  | cons hrow htail ih =>
    simp only [List.zipWith_cons_cons, List.map_cons]
    rw [ih, List.map_fst_zip _ _ (le_of_eq hrow)]

theorem channel0_stack3 :
    ∀ (A B : List (List (List ℝ))),
      List.Forall₂
        (fun x y => List.Forall₂ (fun (r s : List ℝ) => r.length = s.length) x y)
        A B →
      channel0 (stack3 A B) = A := by
  intro A
  induction A with
  | nil => intro B h; cases h; rfl
  | cons x A' ih =>
    intro B h
    cases h with
    | cons hx htail =>
      rename_i y B'
      have h2 := ih B' htail
      simp only [stack3, channel0, List.zipWith_cons_cons, List.map_cons] at h2 ⊢
      rw [stack2_fst x y hx, h2]

theorem rows_map₂ {γ : Type} (X : List (List γ)) (f : γ → List ℝ) (c : ℕ)
    (hf : ∀ x ∈ X, ∀ fr ∈ x, (f fr).length = c) :
    ∀ x ∈ X.map (·.map f), ∀ r ∈ x, r.length = c := by
  simp only [List.mem_map]
  rintro x ⟨t, ht, rfl⟩ r hr
  simp only [List.mem_map] at hr
  obtain ⟨fr, hfr, rfl⟩ := hr
  exact hf t ht fr hfr

theorem counts_map₂ {γ δ : Type} (X : List (List γ)) (f : γ → δ) :
    (X.map (·.map f)).map List.length = X.map List.length := by
  rw [List.map_map]
  apply List.map_congr_left
  intro x _
  simp

theorem rows_mel (P : SpectralPrims) (X : List (List (List ℝ)))
    (n_mel_bins : ℕ) (lo hi : ℝ) :
    ∀ x ∈ linear_to_mel_scale P X n_mel_bins lo hi, ∀ r ∈ x,
      r.length = (P.linear_to_mel_weight_matrix n_mel_bins (lastDim3 X) lo
        hi).transpose.length := by
  unfold linear_to_mel_scale
  exact rows_map₂ X _ _ (fun x _ fr _ => vecMatMul_length fr _)

theorem counts_mel (P : SpectralPrims) (X : List (List (List ℝ)))
    (n_mel_bins : ℕ) (lo hi : ℝ) :
    (linear_to_mel_scale P X n_mel_bins lo hi).map List.length
      = X.map List.length := by
  unfold linear_to_mel_scale
  exact counts_map₂ X _

theorem rows_rowmap (g : ℝ → ℝ) (X : List (List (List ℝ))) (c : ℕ)
    (h : ∀ x ∈ X, ∀ r ∈ x, r.length = c) :
    ∀ x ∈ X.map (·.map (·.map g)), ∀ r ∈ x, r.length = c := by
  refine rows_map₂ X _ c ?_
  intro x hx fr hfr
  rw [List.length_map]
  exact h x hx fr hfr

theorem rows_phase_if (X : List (List (List ℝ))) (c : ℕ)
    (h : ∀ x ∈ X, ∀ r ∈ x, r.length = c) :
    ∀ x ∈ (X.map (·.map unwrapList)).map instFreqTime, ∀ r ∈ x, r.length = c := by
  simp only [List.mem_map]
  rintro x ⟨y, ⟨z, hz, rfl⟩, rfl⟩ r hr
  refine instFreqTime_rows _ c ?_ r hr
  intro r' hr'
  simp only [List.mem_map] at hr'
  obtain ⟨r0, hr0, rfl⟩ := hr'
  rw [unwrapList_length]
  exact h z hz r0 hr0

theorem counts_phase_if (X : List (List (List ℝ))) :
    ((X.map (·.map unwrapList)).map instFreqTime).map List.length
      = X.map List.length := by
  simp only [List.map_map]
  apply List.map_congr_left
  intro x _
  simp [instFreqTime_length]

theorem lastDim3_map_map (X : List (List (List ℂ))) (f g : List ℂ → List ℝ)
    (hfg : ∀ fr, (f fr).length = (g fr).length) :
    lastDim3 (X.map (·.map f)) = lastDim3 (X.map (·.map g)) := by
  cases X with
  | nil => rfl
  | cons t X' =>
    cases t with
    | nil => rfl
    | cons fr t' =>
      simp only [lastDim3, List.map_cons, List.headD_cons]
      exact hfg fr

/-- The key projection fact behind C10: channel 0 of `waveform_2_spectogram`
is exactly the magnitude pipeline — regardless of the
`instantaneous_frequency` setting — provided the STFT primitive produces
frames of a uniform bin count `F` (TensorFlow's `tf.signal.stft` always
returns `frame_length/2 + 1` bins). -/
theorem channel0_spectogram (P : SpectralPrims) (waveform_in : MaybeBatched (List ℝ))
    (frame_length frame_step : ℕ) (log_magnitude instantaneous_frequency : Bool)
    (n_mel_bins : ℕ) (lo hi : ℝ) (F : ℕ)
    (hF : ∀ w fr, fr ∈ P.stft frame_length frame_step w → fr.length = F) :
    channel0 (waveform_2_spectogram P waveform_in frame_length frame_step
        log_magnitude instantaneous_frequency n_mel_bins lo hi)
      = magnitudeDirectSpec P waveform_in frame_length frame_step log_magnitude
          n_mel_bins lo hi := by
  have hstftRows : ∀ x ∈ (MaybeBatched.toBatched waveform_in).map
      (P.stft frame_length frame_step), ∀ fr ∈ x, fr.length = F := by
    simp only [List.mem_map]
    rintro x ⟨w, _, rfl⟩ fr hfr
    exact hF w fr hfr
  have hm0 : ∀ x ∈ ((MaybeBatched.toBatched waveform_in).map
        (P.stft frame_length frame_step)).map
        (·.map fun fr => (fr.map Complex.abs).dropLast), ∀ r ∈ x,
      r.length = F - 1 := by
    refine rows_map₂ _ _ _ ?_
    intro x hx fr hfr
    simp [hstftRows x hx fr hfr]
  have hp0 : ∀ x ∈ ((MaybeBatched.toBatched waveform_in).map
        (P.stft frame_length frame_step)).map
        (·.map fun fr => (fr.map Complex.arg).dropLast), ∀ r ∈ x,
      r.length = F - 1 := by
    refine rows_map₂ _ _ _ ?_
    intro x hx fr hfr
    simp [hstftRows x hx fr hfr]
  have hLD : lastDim3 (((MaybeBatched.toBatched waveform_in).map
        (P.stft frame_length frame_step)).map
        (·.map fun fr => (fr.map Complex.arg).dropLast))
      = lastDim3 (((MaybeBatched.toBatched waveform_in).map
        (P.stft frame_length frame_step)).map
        (·.map fun fr => (fr.map Complex.abs).dropLast)) := by
    apply lastDim3_map_map
    intro fr
    simp
  have hcnt0 : (((MaybeBatched.toBatched waveform_in).map
        (P.stft frame_length frame_step)).map
        (·.map fun fr => (fr.map Complex.abs).dropLast)).map List.length
      = (((MaybeBatched.toBatched waveform_in).map
        (P.stft frame_length frame_step)).map
        (·.map fun fr => (fr.map Complex.arg).dropLast)).map List.length := by
    rw [counts_map₂, counts_map₂]
  have hmmel := rows_mel P
    (((MaybeBatched.toBatched waveform_in).map (P.stft frame_length frame_step)).map
      (·.map fun fr => (fr.map Complex.abs).dropLast)) n_mel_bins lo hi
  have hpmel : ∀ x ∈ linear_to_mel_scale P
      (((MaybeBatched.toBatched waveform_in).map (P.stft frame_length frame_step)).map
        (·.map fun fr => (fr.map Complex.arg).dropLast)) n_mel_bins lo hi, ∀ r ∈ x,
      r.length = (P.linear_to_mel_weight_matrix n_mel_bins
        (lastDim3 (((MaybeBatched.toBatched waveform_in).map
          (P.stft frame_length frame_step)).map
          (·.map fun fr => (fr.map Complex.abs).dropLast))) lo hi).transpose.length := by
    have h := rows_mel P
      (((MaybeBatched.toBatched waveform_in).map (P.stft frame_length frame_step)).map
        (·.map fun fr => (fr.map Complex.arg).dropLast)) n_mel_bins lo hi
    rw [hLD] at h
    exact h
  unfold waveform_2_spectogram magnitudeDirectSpec
  split_ifs with hnm hl hif hif hl hif hif
  · exact channel0_stack3 _ _ (forall₂_of_rows _ _ _
      (rows_rowmap _ _ _ hmmel) (rows_phase_if _ _ hpmel)
      (by rw [counts_map₂, counts_phase_if, counts_mel, counts_mel, hcnt0]))
  · exact channel0_stack3 _ _ (forall₂_of_rows _ _ _
      (rows_rowmap _ _ _ hmmel) hpmel
      (by rw [counts_map₂, counts_mel, counts_mel, hcnt0]))
  · exact channel0_stack3 _ _ (forall₂_of_rows _ _ _
      hmmel (rows_phase_if _ _ hpmel)
      (by rw [counts_phase_if, counts_mel, counts_mel, hcnt0]))
  · exact channel0_stack3 _ _ (forall₂_of_rows _ _ _
      hmmel hpmel
      (by rw [counts_mel, counts_mel, hcnt0]))
  · exact channel0_stack3 _ _ (forall₂_of_rows _ _ _
      (rows_rowmap _ _ _ hm0) (rows_phase_if _ _ hp0)
      (by rw [counts_map₂, counts_phase_if, hcnt0]))
  · exact channel0_stack3 _ _ (forall₂_of_rows _ _ _
      (rows_rowmap _ _ _ hm0) hp0
      (by rw [counts_map₂, hcnt0]))
  · exact channel0_stack3 _ _ (forall₂_of_rows _ _ _
      hm0 (rows_phase_if _ _ hp0)
      (by rw [counts_phase_if, hcnt0]))
  · exact channel0_stack3 _ _ (forall₂_of_rows _ _ _ hm0 hp0 hcnt0)

/-- Claim C10: for every waveform input and every common parameter setting
(`frame_length`, `frame_step`, `log_magnitude`, `n_mel_bins`, the mel
frequency edges), `waveform_2_magnitude` equals the magnitude channel
(index 0 of the last axis) of `waveform_2_spectogram` with the same
parameters — for either setting of the spectrogram's
`instantaneous_frequency` flag — and both equal the direct, independent
magnitude computation `magnitudeDirectSpec` written from the spec's words:
the wrapper is exactly that composition, never an independent computation.
The hypothesis states that the STFT primitive returns a uniform bin count,
as `tf.signal.stft` always does (`frame_length/2 + 1` bins). -/
theorem magnitude_is_projection (P : SpectralPrims)
    (waveform_in : MaybeBatched (List ℝ)) (frame_length frame_step : ℕ)
    (log_magnitude instantaneous_frequency : Bool) (n_mel_bins : ℕ) (lo hi : ℝ)
    (F : ℕ) (hF : ∀ w fr, fr ∈ P.stft frame_length frame_step w → fr.length = F) :
    waveform_2_magnitude P waveform_in frame_length frame_step log_magnitude
        n_mel_bins lo hi
      = channel0 (waveform_2_spectogram P waveform_in frame_length frame_step
          log_magnitude instantaneous_frequency n_mel_bins lo hi) ∧
    waveform_2_magnitude P waveform_in frame_length frame_step log_magnitude
        n_mel_bins lo hi
      = magnitudeDirectSpec P waveform_in frame_length frame_step log_magnitude
          n_mel_bins lo hi := by
  have h1 := channel0_spectogram P waveform_in frame_length frame_step
    log_magnitude true n_mel_bins lo hi F hF
  have h2 := channel0_spectogram P waveform_in frame_length frame_step
    log_magnitude instantaneous_frequency n_mel_bins lo hi F hF
  constructor
  · unfold waveform_2_magnitude
    rw [h1, h2]
  · unfold waveform_2_magnitude
    exact h1

theorem magnitude_is_projection_witness :
    (∀ (w : List ℝ) (fr : List ℂ), fr ∈ probePrims.stft 512 128 w → fr.length = 0) ∧
    (waveform_2_magnitude probePrims (.single [1]) 512 128 true 0 0 8000
        = channel0 (waveform_2_spectogram probePrims (.single [1]) 512 128 true
            false 0 0 8000) ∧
      waveform_2_magnitude probePrims (.single [1]) 512 128 true 0 0 8000
        = magnitudeDirectSpec probePrims (.single [1]) 512 128 true 0 0 8000) :=
  ⟨fun _ fr h => by simp [probePrims] at h,
    magnitude_is_projection probePrims (.single [1]) 512 128 true false 0 0 8000 0
      (fun _ fr h => by simp [probePrims] at h)⟩

end AudioSynthesis
